import Mathlib

/-
  Verification of the node-level configuration reconciler
  (gardener-node-agent operating system config controller).

  The reconciler's data model and operations are embedded below.  The Go
  implementation package (pkg/nodeagent/controller/operatingsystemconfig)
  is not part of the sampled sources; the definitions are modelled from
  the specification (spec.md §3–§4.6) and cross-checked against the
  behavior pinned down by the integration test in src/unnamed/part_000
  (expected fake-dbus action lists and on-disk assertions), which is the
  authoritative source where it speaks.
-/

set_option maxRecDepth 8000

namespace NA

/-- Modelled from the spec: a named content fragment scoped to one unit
(spec.md §3 "DropIn"); the `extensionsv1alpha1.DropIn` Go struct.  The
implementation source is absent from src/; shape taken from the spec and
the integration test fixtures. -/
structure DropIn where
  name : String
  content : String
deriving DecidableEq

/-- Modelled from the spec: the optional `command` of a unit, `start` or
`stop` (spec.md §3 "Unit"). -/
inductive UnitCommand where
  | start
  | stop
deriving DecidableEq

/-- Modelled from the spec: a declared file (spec.md §3 "File").  The
Content Resolver (§4.1, inline/base64/image extraction) is abstracted:
`content` holds the already-resolved bytes, since no settled property
depends on the encoding mechanics.  `permissions` is the optional mode. -/
structure File where
  path : String
  content : String
  permissions : Option Nat
deriving DecidableEq

/-- Modelled from the spec: a service unit declaration (spec.md §3
"Unit"): optional enablement, optional command, optional content, ordered
drop-ins, and embedded files. -/
structure Unit where
  name : String
  enable : Option Bool
  command : Option UnitCommand
  content : Option String
  dropIns : List DropIn
  files : List File
deriving DecidableEq

/-- Modelled from the spec: the desired-state input document (spec.md §6):
owner files/units plus extension files/units. -/
structure OSC where
  files : List File
  units : List Unit
  extensionFiles : List File
  extensionUnits : List Unit
deriving DecidableEq

/-- Modelled from the spec: merging a later entry of a unit name into the
first entry of that name (spec.md §4.2): drop-in sequences are
concatenated in order, and a non-absent `enable`/`command`/`content` of
the later entry overrides; embedded files are concatenated. -/
def mergeUnit (base add : Unit) : Unit :=
  { name := base.name
    enable := match add.enable with | some b => some b | none => base.enable
    command := match add.command with | some c => some c | none => base.command
    content := match add.content with | some c => some c | none => base.content
    dropIns := base.dropIns ++ add.dropIns
    files := base.files ++ add.files }

/-- First-occurrence deduplication of a name list (helper for grouping
units by name in declaration order). -/
def dedupNames : List String → List String
  | [] => []
  | n :: rest => n :: (dedupNames rest).filter (fun m => m != n)

/-- Folds all entries of one unit name (in declaration order) into one
unit; `none` when the name is absent. -/
def mergeGroup (input : List Unit) (n : String) : Option Unit :=
  match input.filter (fun u => u.name == n) with
  | [] => none
  | e :: rest => some (rest.foldl mergeUnit e)

/-- Modelled from the spec: the Desired-State Assembler's unit merge
(spec.md §4.2): units of the owner list and the extension list are grouped
by name (owner entries first, in declaration order) and each group is
folded into one unit via `mergeUnit`.  Per the integration test
(src/unnamed/part_000, unit3), a name whose entries are all fragment-only
still yields a standalone unit; no error is raised. -/
def mergeUnits (ownerUnits extensionUnits : List Unit) : List Unit :=
  (dedupNames ((ownerUnits ++ extensionUnits).map (fun u => u.name))).filterMap
    (mergeGroup (ownerUnits ++ extensionUnits))

/-- The canonical unit list of a desired-state document. -/
def mergedUnits (osc : OSC) : List Unit :=
  mergeUnits osc.units osc.extensionUnits

/-- Modelled from the spec: all files of a document — owner files,
extension files, and the files embedded in every unit (spec.md §4.2). -/
def collectAllFiles (osc : OSC) : List File :=
  osc.files ++ osc.extensionFiles ++ (osc.units ++ osc.extensionUnits).flatMap (fun u => u.files)

/-- Unit list of the applied-state baseline (`none` = no previous OSC). -/
def appliedUnits : Option OSC → List Unit
  | none => []
  | some osc => mergedUnits osc

/-- File list of the applied-state baseline (`none` = no previous OSC). -/
def appliedFiles : Option OSC → List File
  | none => []
  | some osc => collectAllFiles osc

/-- Lookup of a unit by name (first match). -/
def findUnit (units : List Unit) (n : String) : Option Unit :=
  units.find? (fun u => u.name == n)

/-- Lookup of a file by path (first match). -/
def findFile (files : List File) (p : String) : Option File :=
  files.find? (fun f => f.path == p)

/-- A unit classified as added or modified by the diff: the desired unit
together with its applied-state predecessor (`none` = newly added). -/
structure ChangedUnit where
  unit : Unit
  old : Option Unit
deriving DecidableEq

/-- Unit part of a change set: added/modified units and removed units. -/
structure UnitChanges where
  changed : List ChangedUnit
  deleted : List Unit
deriving DecidableEq

/-- File part of a change set: added/modified files and removed files. -/
structure FileChanges where
  changed : List File
  deleted : List File
deriving DecidableEq

/-- A change set (spec.md §4.3 "ChangeSet"). -/
structure Changes where
  units : UnitChanges
  files : FileChanges
deriving DecidableEq

/-- Modelled from the spec: the Diff Engine on units (spec.md §4.3).
Comparison is structural; a desired unit absent from the applied baseline
is added, a structurally different one is modified, an applied unit whose
name is absent from the desired list is removed. -/
def computeUnitChanges (oldUnits newUnits : List Unit) : UnitChanges :=
  { changed := newUnits.filterMap (fun u =>
      match findUnit oldUnits u.name with
      | none => some { unit := u, old := none }
      | some o => if o = u then none else some { unit := u, old := some o })
    deleted := oldUnits.filter (fun o => (findUnit newUnits o.name).isNone) }

/-- Modelled from the spec: the Diff Engine on files (spec.md §4.3),
keyed by path, structural comparison. -/
def computeFileChanges (oldFiles newFiles : List File) : FileChanges :=
  { changed := newFiles.filter (fun f =>
      match findFile oldFiles f.path with
      | none => true
      | some o => if o = f then false else true)
    deleted := oldFiles.filter (fun f => (findFile newFiles f.path).isNone) }

/-- Modelled from the spec: `diff(desired, applied) -> ChangeSet`
(spec.md §4.3), comparing the assembled desired state against the last
applied baseline. -/
def diff (applied : Option OSC) (desired : OSC) : Changes :=
  { units := computeUnitChanges (appliedUnits applied) (mergedUnits desired)
    files := computeFileChanges (appliedFiles applied) (collectAllFiles desired) }

/-- A typed step of a reconciliation plan (spec.md §3
"ReconciliationPlan"). -/
inductive Step where
  | writeFile (path : String) (content : String) (mode : Nat)
  | deleteFile (path : String)
  | deleteDir (path : String)
  | enable (unitName : String)
  | disable (unitName : String)
  | daemonReload
  | start (unitName : String)
  | stop (unitName : String)
  | restart (unitName : String)
deriving DecidableEq

/-- Restrictive default file mode (owner read/write only), used when a
file declares no permissions and for all unit and drop-in files. -/
def defaultFilePermissions : Nat := 0o600

/-- Root of the unit configuration directory. -/
def etcSystemdSystem : String := "/etc/systemd/system/"

/-- Name of the unit running the reconciler's own process. -/
def gardenerNodeAgentUnitName : String := "gardener-node-agent.service"

/-- Path of a unit's own configuration file. -/
def unitFilePath (n : String) : String := etcSystemdSystem ++ n

/-- Path of a unit's drop-in directory. -/
def dropInDirPath (n : String) : String := etcSystemdSystem ++ n ++ ".d"

/-- Path of one drop-in file of a unit. -/
def dropInFilePath (n d : String) : String := dropInDirPath n ++ "/" ++ d

/-- Modelled from the spec: file phase of the Execution Planner (spec.md
§4.4 phase 1): write every added/modified file (declared permissions,
default restrictive mode), delete every removed file. -/
def fileSteps (fc : FileChanges) : List Step :=
  fc.changed.map (fun f => Step.writeFile f.path f.content (f.permissions.getD defaultFilePermissions))
    ++ fc.deleted.map (fun f => Step.deleteFile f.path)

/-- Modelled from the spec: unit installation for every added/modified
unit (spec.md §4.4 phase 1): the unit file (when content is declared) and
every drop-in are written below the unit configuration root with the
restrictive default mode; a unit left without drop-ins has its drop-in
directory deleted.  Matches the on-disk assertions of the integration
test (src/unnamed/part_000). -/
def unitInstallSteps (changed : List ChangedUnit) : List Step :=
  changed.flatMap (fun cu =>
    (match cu.unit.content with
     | some c => [Step.writeFile (unitFilePath cu.unit.name) c defaultFilePermissions]
     | none => [])
    ++ (if cu.unit.dropIns.isEmpty then
          [Step.deleteDir (dropInDirPath cu.unit.name)]
        else
          cu.unit.dropIns.map (fun d =>
            Step.writeFile (dropInFilePath cu.unit.name d.name) d.content defaultFilePermissions)))

/-- Modelled from the spec: handling of removed units (spec.md §4.3 edge
case, §4.4): disable and stop the unit, delete its unit file and its
whole drop-in directory.  Matches the second reconciliation of the
integration test (unit1). -/
def unitRemoveSteps (deleted : List Unit) : List Step :=
  deleted.flatMap (fun u =>
    [Step.disable u.name, Step.stop u.name,
     Step.deleteFile (unitFilePath u.name), Step.deleteDir (dropInDirPath u.name)])

/-- Modelled from the spec: enablement phase (spec.md §4.4 phase 2), with
the behavior pinned by the integration test: every added/modified unit
receives an enablement action according to its desired `enable` value,
absent `enable` defaulting to true (test: unit3 with no `enable` is
enabled; unit5/unit6/unit7 are re-enabled although their `enable` did not
change); the reconciler's own unit is always enabled. -/
def unitEnableSteps (changed : List ChangedUnit) : List Step :=
  changed.map (fun cu =>
    if cu.unit.name == gardenerNodeAgentUnitName then Step.enable cu.unit.name
    else if cu.unit.enable.getD true then Step.enable cu.unit.name
    else Step.disable cu.unit.name)

/-- Modelled from the spec: whether one added/modified unit requires a
manager reload (spec.md §4.4 phase 3): it was added or its content or
drop-ins changed. -/
def unitNeedsDaemonReload (cu : ChangedUnit) : Bool :=
  match cu.old with
  | none => true
  | some o => if o.content = cu.unit.content ∧ o.dropIns = cu.unit.dropIns then false else true

/-- Modelled from the spec: the manager-reload condition (spec.md §4.4
phase 3): at least one unit was added, removed, or had its content or
drop-ins changed. -/
def mustReloadDaemon (uc : UnitChanges) : Bool :=
  uc.changed.any unitNeedsDaemonReload || !uc.deleted.isEmpty

/-- Modelled from the spec: manager-reload phase (spec.md §4.4 phase 3):
exactly one reload step, emitted iff the reload condition holds. -/
def reloadSteps (uc : UnitChanges) : List Step :=
  if mustReloadDaemon uc then [Step.daemonReload] else []

/-- Modelled from the spec: command phase (spec.md §4.4 phase 4), with
the behavior pinned by the integration test: for every added/modified
unit other than the reconciler's own, a `stop` is emitted when the unit
is explicitly disabled or declares `command: stop` (test: unit4 with
`command: start` but `enable: false` is stopped), and a `restart` is
emitted otherwise — also for newly added units (test: first
reconciliation restarts every unit) and for units declaring no command
(test: unit3).  The reconciler's own unit gets no command step. -/
def unitCommandSteps (changed : List ChangedUnit) : List Step :=
  changed.filterMap (fun cu =>
    if cu.unit.name == gardenerNodeAgentUnitName then none
    else if cu.unit.enable.getD true = false ∨ cu.unit.command = some UnitCommand.stop then
      some (Step.stop cu.unit.name)
    else
      some (Step.restart cu.unit.name))

/-- A reconciliation plan: the ordered steps plus the cancellation flag
of the Self-Supervision Gate (spec.md §4.5). -/
structure Plan where
  steps : List Step
  cancel : Bool
deriving DecidableEq

/-- Modelled from the spec: the Execution Planner (spec.md §4.4): file
phase, unit installation, removed-unit cleanup, enablement phase,
manager-reload phase, command phase; the cancellation flag is raised iff
the reconciler's own unit is among the added/modified units. -/
def plan (ch : Changes) : Plan :=
  { steps := fileSteps ch.files ++ unitInstallSteps ch.units.changed
      ++ unitRemoveSteps ch.units.deleted ++ unitEnableSteps ch.units.changed
      ++ reloadSteps ch.units ++ unitCommandSteps ch.units.changed
    cancel := ch.units.changed.any (fun cu => cu.unit.name == gardenerNodeAgentUnitName) }

/-- Modelled from the spec: the Persistence Bookkeeper (spec.md §4.6):
committing always overwrites the applied baseline with the desired state
the plan was derived from. -/
def commit (desired : OSC) : Option OSC := some desired

/-! Concrete inputs taken from the integration test fixtures in
src/unnamed/part_000 (file contents are the resolved bytes: `file2` is
declared base64-encoded, `file3` is extracted from a mounted image). -/

def file1 : File := { path := "/example/file", content := "file1", permissions := some 0o777 }

def file2 : File := { path := "/another/file", content := "file2", permissions := none }

def file3 : File := { path := "/third/file", content := "file3", permissions := some 0o750 }

def file4 : File := { path := "/unchanged/file", content := "file4", permissions := some 0o750 }

def file5 : File := { path := "/changed/file", content := "file5", permissions := some 0o750 }

def gnaUnit : Unit :=
  { name := gardenerNodeAgentUnitName, enable := some false, command := none
    content := some "#gna", dropIns := [], files := [] }

def unit1 : Unit :=
  { name := "unit1", enable := some true, command := some UnitCommand.start
    content := some "#unit1", dropIns := [{ name := "drop", content := "#unit1drop" }], files := [] }

def unit2 : Unit :=
  { name := "unit2", enable := some false, command := some UnitCommand.stop
    content := some "#unit2", dropIns := [], files := [] }

def unit3 : Unit :=
  { name := "unit3", enable := none, command := none, content := none
    dropIns := [{ name := "drop", content := "#unit3drop" }], files := [file4] }

def unit4 : Unit :=
  { name := "unit4", enable := some true, command := some UnitCommand.start
    content := some "#unit4", dropIns := [{ name := "drop", content := "#unit4drop" }], files := [] }

def unit5 : Unit :=
  { name := "unit5", enable := some true, command := some UnitCommand.start
    content := some "#unit5"
    dropIns := [{ name := "drop1", content := "#unit5drop1" }, { name := "drop2", content := "#unit5drop2" }]
    files := [] }

def unit5DropInsOnly : Unit :=
  { name := "unit5", enable := none, command := none, content := none
    dropIns := [{ name := "extensionsdrop", content := "#unit5extensionsdrop" }], files := [] }

def unit6 : Unit :=
  { name := "unit6", enable := some true, command := none, content := some "#unit6"
    dropIns := [], files := [file3] }

def unit7 : Unit :=
  { name := "unit7", enable := some true, command := none, content := some "#unit7"
    dropIns := [], files := [file5] }

/-- The first desired-state document of the integration test. -/
def osc1 : OSC :=
  { files := [file1], units := [unit1, unit2, unit5, unit5DropInsOnly, unit6, unit7]
    extensionFiles := [file2], extensionUnits := [unit3, unit4] }

def unit2v2 : Unit :=
  { unit2 with
    enable := some true
    command := some UnitCommand.start
    dropIns := [{ name := "dropdropdrop", content := "#unit2drop" }] }

def unit4v2 : Unit := { unit4 with enable := some false, dropIns := [] }

def unit5v2 : Unit := { unit5 with dropIns := [{ name := "drop2", content := "#unit5drop2" }] }

def unit6v2 : Unit := { unit6 with files := [] }

def file5v2 : File := { file5 with content := "changeme" }

def unit7v2 : Unit := { unit7 with files := [file5v2] }

/-- The updated desired-state document of the integration test's second
reconciliation. -/
def osc2 : OSC :=
  { files := [file1, file3], units := [unit2v2, unit5v2, unit6v2, unit7v2]
    extensionFiles := [], extensionUnits := [unit3, unit4v2] }

/-- The desired-state document of the integration test's self-restart
scenario: the first document plus the agent's own unit. -/
def oscGna : OSC :=
  { osc1 with units := osc1.units ++ [gnaUnit] }

/-- A document containing only the fragment-only extension unit `unit3`. -/
def oscUnit3Only : OSC :=
  { files := [], units := [], extensionFiles := [], extensionUnits := [unit3] }

/-- A document containing only `unit1`. -/
def oscUnit1Only : OSC :=
  { files := [], units := [unit1], extensionFiles := [], extensionUnits := [] }

/-- The empty desired-state document. -/
def oscEmpty : OSC :=
  { files := [], units := [], extensionFiles := [], extensionUnits := [] }

/-- A document containing only `unit5`. -/
def oscUnit5Old : OSC :=
  { files := [], units := [unit5], extensionFiles := [], extensionUnits := [] }

/-- A document containing only `unit5v2` (same `enable`, fewer drop-ins). -/
def oscUnit5New : OSC :=
  { files := [], units := [unit5v2], extensionFiles := [], extensionUnits := [] }

/-- A document containing only the agent's own unit (enable false). -/
def oscGnaOld : OSC :=
  { files := [], units := [gnaUnit], extensionFiles := [], extensionUnits := [] }

/-- The same document with the agent's own unit enable flipped to true:
an enablement-only change of the agent unit. -/
def oscGnaNew : OSC :=
  { files := [], units := [{ gnaUnit with enable := some true }], extensionFiles := []
    extensionUnits := [] }

/-- A document containing only `unit2` (enable false, command stop). -/
def oscUnit2Only : OSC :=
  { files := [], units := [unit2], extensionFiles := [], extensionUnits := [] }

/-- A document containing only the standalone files `file1` and `file2`. -/
def oscFilesOnly : OSC :=
  { files := [file1, file2], units := [], extensionFiles := [], extensionUnits := [] }

/-! Lemmas about name deduplication. -/

theorem mem_dedupNames {m : String} : ∀ {l : List String}, m ∈ dedupNames l ↔ m ∈ l
  | [] => by simp [dedupNames]
  | n :: rest => by
    simp only [dedupNames, List.mem_cons, List.mem_filter, bne_iff_ne]
    constructor
    · rintro (rfl | ⟨hm, _⟩)
      · exact Or.inl rfl
      · exact Or.inr (mem_dedupNames.mp hm)
    · rintro (rfl | hm)
      · exact Or.inl rfl
      · by_cases hmn : m = n
        · exact Or.inl hmn
        · exact Or.inr ⟨mem_dedupNames.mpr hm, hmn⟩

theorem nodup_dedupNames : ∀ (l : List String), (dedupNames l).Nodup
  | [] => by simp [dedupNames]
  | n :: rest => by
    simp only [dedupNames, List.nodup_cons]
    refine ⟨?_, (nodup_dedupNames rest).filter _⟩
    intro hmem
    exact absurd rfl (bne_iff_ne.mp (List.mem_filter.mp hmem).2)

/-! Lemmas about folding `mergeUnit` over a group of same-named entries. -/

theorem mergeUnit_name (base add : Unit) : (mergeUnit base add).name = base.name := rfl

theorem foldl_mergeUnit_name : ∀ (l : List Unit) (e : Unit), (l.foldl mergeUnit e).name = e.name
  | [], _ => rfl
  | r :: rest, e => by
    rw [List.foldl_cons, foldl_mergeUnit_name rest (mergeUnit e r), mergeUnit_name]

theorem foldl_mergeUnit_dropIns :
    ∀ (l : List Unit) (e : Unit),
      (l.foldl mergeUnit e).dropIns = e.dropIns ++ l.flatMap (fun u => u.dropIns)
  | [], e => by simp
  | r :: rest, e => by
    rw [List.foldl_cons, foldl_mergeUnit_dropIns rest (mergeUnit e r)]
    simp [mergeUnit, List.append_assoc]

theorem foldl_mergeUnit_content_none :
    ∀ (l : List Unit) (e : Unit), e.content = none → (∀ r ∈ l, r.content = none) →
      (l.foldl mergeUnit e).content = none
  | [], e, he, _ => he
  | r :: rest, e, he, hl => by
    rw [List.foldl_cons]
    refine foldl_mergeUnit_content_none rest (mergeUnit e r) ?_ ?_
    · have hr : r.content = none := hl r (List.mem_cons_self r rest)
      simp [mergeUnit, hr, he]
    · exact fun x hx => hl x (List.mem_cons_of_mem r hx)

/-! Generic lemmas about name lookup in lists with pairwise-distinct names. -/

theorem filter_name_eq_nil {l : List Unit} {n : String}
    (h : n ∉ l.map (fun u => u.name)) : l.filter (fun u => u.name == n) = [] := by
  refine List.filter_eq_nil_iff.mpr ?_
  intro u hu hbeq
  exact h (List.mem_map.mpr ⟨u, hu, beq_iff_eq.mp hbeq⟩)

theorem findUnit_eq_none {l : List Unit} {n : String}
    (h : n ∉ l.map (fun u => u.name)) : findUnit l n = none := by
  refine List.find?_eq_none.mpr ?_
  intro u hu hbeq
  exact h (List.mem_map.mpr ⟨u, hu, beq_iff_eq.mp hbeq⟩)

theorem findUnit_eq_some_of_mem :
    ∀ {l : List Unit}, (l.map (fun u => u.name)).Nodup → ∀ {u : Unit}, u ∈ l →
      findUnit l u.name = some u := by
  intro l
  induction l with
  | nil => intro _ u hu; cases hu
  | cons v t ih =>
    intro hnd u hu
    rw [List.map_cons, List.nodup_cons] at hnd
    rcases List.mem_cons.mp hu with rfl | hut
    · simp [findUnit]
    · have hne : v.name ≠ u.name := by
        intro he
        exact hnd.1 (he ▸ List.mem_map.mpr ⟨u, hut, rfl⟩)
      have : (v.name == u.name) = false := beq_eq_false_iff_ne.mpr hne
      simpa [findUnit, List.find?_cons, this] using ih hnd.2 hut

theorem filter_name_of_mem :
    ∀ {l : List Unit}, (l.map (fun u => u.name)).Nodup → ∀ {u : Unit}, u ∈ l →
      l.filter (fun v => v.name == u.name) = [u] := by
  intro l
  induction l with
  | nil => intro _ u hu; cases hu
  | cons v t ih =>
    intro hnd u hu
    rw [List.map_cons, List.nodup_cons] at hnd
    rcases List.mem_cons.mp hu with rfl | hut
    · have : t.filter (fun v => v.name == u.name) = [] :=
        filter_name_eq_nil hnd.1
      simp [List.filter_cons, this]
    · have hne : v.name ≠ u.name := by
        intro he
        exact hnd.1 (he ▸ List.mem_map.mpr ⟨u, hut, rfl⟩)
      have hvb : (v.name == u.name) = false := beq_eq_false_iff_ne.mpr hne
      simpa [List.filter_cons, hvb] using ih hnd.2 hut

theorem name_inj {l : List Unit} (hnd : (l.map (fun u => u.name)).Nodup)
    {u v : Unit} (hu : u ∈ l) (hv : v ∈ l) (h : u.name = v.name) : u = v := by
  have h1 := findUnit_eq_some_of_mem hnd hu
  have h2 := findUnit_eq_some_of_mem hnd hv
  rw [h] at h1
  rw [h1] at h2
  exact Option.some.inj h2

/-! Lemmas about the assembler's unit merge. -/

theorem mergeGroup_name {input : List Unit} {n : String} {u : Unit}
    (h : mergeGroup input n = some u) : u.name = n := by
  unfold mergeGroup at h
  rcases hf : input.filter (fun v => v.name == n) with _ | ⟨e, rest⟩
  · rw [hf] at h; cases h
  · rw [hf] at h
    have he : e ∈ input.filter (fun v => v.name == n) := by
      rw [hf]; exact List.mem_cons_self e rest
    have : (e.name == n) = true := (List.mem_filter.mp he).2
    have hen : e.name = n := beq_iff_eq.mp this
    have := Option.some.inj h
    rw [← this, foldl_mergeUnit_name]
    exact hen

theorem mergeGroup_isSome {input : List Unit} {n : String} {u : Unit}
    (hu : u ∈ input) (hn : u.name = n) : ∃ v, mergeGroup input n = some v := by
  unfold mergeGroup
  rcases hf : input.filter (fun v => v.name == n) with _ | ⟨e, rest⟩
  · exfalso
    have : u ∈ input.filter (fun v => v.name == n) :=
      List.mem_filter.mpr ⟨hu, beq_iff_eq.mpr hn⟩
    rw [hf] at this
    cases this
  · rw [hf]
    exact ⟨rest.foldl mergeUnit e, rfl⟩

theorem map_name_filterMap_mergeGroup (input : List Unit) :
    ∀ (ns : List String), (∀ n ∈ ns, ∃ u ∈ input, u.name = n) →
      (ns.filterMap (mergeGroup input)).map (fun u => u.name) = ns
  | [], _ => rfl
  | n :: rest, h => by
    obtain ⟨u, hu, hun⟩ := h n (List.mem_cons_self n rest)
    obtain ⟨v, hv⟩ := mergeGroup_isSome hu hun
    rw [List.filterMap_cons, hv, List.map_cons, mergeGroup_name hv,
      map_name_filterMap_mergeGroup input rest (fun m hm => h m (List.mem_cons_of_mem n hm))]

theorem map_name_mergeUnits (o e : List Unit) :
    (mergeUnits o e).map (fun u => u.name) = dedupNames ((o ++ e).map (fun u => u.name)) := by
  unfold mergeUnits
  refine map_name_filterMap_mergeGroup (o ++ e) _ ?_
  intro n hn
  have : n ∈ (o ++ e).map (fun u => u.name) := mem_dedupNames.mp hn
  obtain ⟨u, hu, hun⟩ := List.mem_map.mp this
  exact ⟨u, hu, hun⟩

theorem nodup_names_mergeUnits (o e : List Unit) :
    ((mergeUnits o e).map (fun u => u.name)).Nodup := by
  rw [map_name_mergeUnits]
  exact nodup_dedupNames _

theorem nodup_names_mergedUnits (osc : OSC) :
    ((mergedUnits osc).map (fun u => u.name)).Nodup :=
  nodup_names_mergeUnits osc.units osc.extensionUnits

theorem mem_mergeUnits_of_group {o e : List Unit} {n : String} {m : Unit}
    (hg : mergeGroup (o ++ e) n = some m) (hn : n ∈ (o ++ e).map (fun u => u.name)) :
    m ∈ mergeUnits o e := by
  unfold mergeUnits
  exact List.mem_filterMap.mpr ⟨n, mem_dedupNames.mpr hn, hg⟩

theorem group_of_mem_mergeUnits {o e : List Unit} {u : Unit}
    (hu : u ∈ mergeUnits o e) : mergeGroup (o ++ e) u.name = some u := by
  unfold mergeUnits at hu
  obtain ⟨n, _, hg⟩ := List.mem_filterMap.mp hu
  rw [mergeGroup_name hg]
  exact hg

theorem findUnit_mergeUnits (o e : List Unit) (n : String) :
    findUnit (mergeUnits o e) n = mergeGroup (o ++ e) n := by
  by_cases hn : n ∈ (o ++ e).map (fun u => u.name)
  · obtain ⟨u, hu, hun⟩ := List.mem_map.mp hn
    obtain ⟨v, hv⟩ := mergeGroup_isSome hu hun
    have hvm : v ∈ mergeUnits o e := mem_mergeUnits_of_group hv hn
    have : findUnit (mergeUnits o e) v.name = some v :=
      findUnit_eq_some_of_mem (nodup_names_mergeUnits o e) hvm
    rw [mergeGroup_name hv] at this
    rw [this, hv]
  · have h1 : findUnit (mergeUnits o e) n = none := by
      refine findUnit_eq_none ?_
      rw [map_name_mergeUnits]
      intro hmem
      exact hn (mem_dedupNames.mp hmem)
    have h2 : mergeGroup (o ++ e) n = none := by
      unfold mergeGroup
      rw [filter_name_eq_nil hn]
    rw [h1, h2]

/-! Lemmas about the diff engine. -/

theorem changed_spec {oldUnits newUnits : List Unit} {cu : ChangedUnit}
    (h : cu ∈ (computeUnitChanges oldUnits newUnits).changed) :
    cu.unit ∈ newUnits ∧ cu.old = findUnit oldUnits cu.unit.name ∧ cu.old ≠ some cu.unit := by
  unfold computeUnitChanges at h
  obtain ⟨u, hu, hfu⟩ := List.mem_filterMap.mp h
  rcases hf : findUnit oldUnits u.name with _ | o
  · rw [hf] at hfu
    dsimp only at hfu
    have := Option.some.inj hfu
    subst this
    exact ⟨hu, by rw [hf], by simp⟩
  · rw [hf] at hfu
    dsimp only at hfu
    by_cases ho : o = u
    · rw [if_pos ho] at hfu; cases hfu
    · rw [if_neg ho] at hfu
      have := Option.some.inj hfu
      subst this
      refine ⟨hu, by rw [hf], ?_⟩
      intro hc
      exact ho (Option.some.inj hc)

theorem mem_changed_of {oldUnits newUnits : List Unit} {u : Unit}
    (hu : u ∈ newUnits) (h : findUnit oldUnits u.name ≠ some u) :
    ({ unit := u, old := findUnit oldUnits u.name } : ChangedUnit)
      ∈ (computeUnitChanges oldUnits newUnits).changed := by
  unfold computeUnitChanges
  refine List.mem_filterMap.mpr ⟨u, hu, ?_⟩
  rcases hf : findUnit oldUnits u.name with _ | o
  · rfl
  · rw [hf] at h
    have ho : o ≠ u := fun he => h (he ▸ rfl)
    dsimp only
    rw [if_neg ho]

theorem deleted_spec {oldUnits newUnits : List Unit} {u : Unit} :
    u ∈ (computeUnitChanges oldUnits newUnits).deleted ↔
      u ∈ oldUnits ∧ findUnit newUnits u.name = none := by
  unfold computeUnitChanges
  simp only [List.mem_filter, Option.isNone_iff_eq_none, decide_eq_true_eq]

theorem changed_names_of {oldUnits newUnits : List Unit} {n : String}
    (hnd : (newUnits.map (fun u => u.name)).Nodup)
    {cu : ChangedUnit} (hcu : cu ∈ (computeUnitChanges oldUnits newUnits).changed)
    (hn : cu.unit.name = n) :
    ∀ cv ∈ (computeUnitChanges oldUnits newUnits).changed, cv.unit.name = n → cv = cu := by
  intro cv hcv hvn
  obtain ⟨hu1, ho1, _⟩ := changed_spec hcu
  obtain ⟨hu2, ho2, _⟩ := changed_spec hcv
  have huv : cv.unit = cu.unit := name_inj hnd hu2 hu1 (hvn.trans hn.symm)
  have : cv.old = cu.old := by rw [ho1, ho2, huv]
  cases cu; cases cv
  simp only at huv this
  rw [huv, this]

/-! Lemmas about the planner's phases: what steps each phase can emit and
which steps it must emit. -/

theorem plan_steps_eq (ch : Changes) :
    (plan ch).steps = fileSteps ch.files ++ unitInstallSteps ch.units.changed
      ++ unitRemoveSteps ch.units.deleted ++ unitEnableSteps ch.units.changed
      ++ reloadSteps ch.units ++ unitCommandSteps ch.units.changed := rfl

theorem of_mem_fileSteps {fc : FileChanges} {s : Step} (h : s ∈ fileSteps fc) :
    (∃ f ∈ fc.changed, s = Step.writeFile f.path f.content (f.permissions.getD defaultFilePermissions))
      ∨ (∃ f ∈ fc.deleted, s = Step.deleteFile f.path) := by
  unfold fileSteps at h
  rcases List.mem_append.mp h with h | h
  · obtain ⟨f, hf, hs⟩ := List.mem_map.mp h
    exact Or.inl ⟨f, hf, hs.symm⟩
  · obtain ⟨f, hf, hs⟩ := List.mem_map.mp h
    exact Or.inr ⟨f, hf, hs.symm⟩

theorem of_mem_unitInstallSteps {changed : List ChangedUnit} {s : Step}
    (h : s ∈ unitInstallSteps changed) :
    ∃ cu ∈ changed,
      (∃ c, cu.unit.content = some c ∧ s = Step.writeFile (unitFilePath cu.unit.name) c defaultFilePermissions)
      ∨ s = Step.deleteDir (dropInDirPath cu.unit.name)
      ∨ (∃ d ∈ cu.unit.dropIns,
          s = Step.writeFile (dropInFilePath cu.unit.name d.name) d.content defaultFilePermissions) := by
  unfold unitInstallSteps at h
  obtain ⟨cu, hcu, hs⟩ := List.mem_flatMap.mp h
  refine ⟨cu, hcu, ?_⟩
  rcases List.mem_append.mp hs with hs | hs
  · rcases hc : cu.unit.content with _ | c
    · rw [hc] at hs; cases hs
    · rw [hc] at hs
      rcases List.mem_singleton.mp hs with rfl
      exact Or.inl ⟨c, rfl, rfl⟩
  · by_cases he : cu.unit.dropIns.isEmpty
    · rw [if_pos he] at hs
      rcases List.mem_singleton.mp hs with rfl
      exact Or.inr (Or.inl rfl)
    · rw [if_neg he] at hs
      obtain ⟨d, hd, hds⟩ := List.mem_map.mp hs
      exact Or.inr (Or.inr ⟨d, hd, hds.symm⟩)

theorem of_mem_unitRemoveSteps {deleted : List Unit} {s : Step}
    (h : s ∈ unitRemoveSteps deleted) :
    ∃ u ∈ deleted, s = Step.disable u.name ∨ s = Step.stop u.name
      ∨ s = Step.deleteFile (unitFilePath u.name) ∨ s = Step.deleteDir (dropInDirPath u.name) := by
  unfold unitRemoveSteps at h
  obtain ⟨u, hu, hs⟩ := List.mem_flatMap.mp h
  refine ⟨u, hu, ?_⟩
  simp only [List.mem_cons, List.mem_singleton] at hs
  rcases hs with rfl | rfl | rfl | rfl | h
  · exact Or.inl rfl
  · exact Or.inr (Or.inl rfl)
  · exact Or.inr (Or.inr (Or.inl rfl))
  · exact Or.inr (Or.inr (Or.inr rfl))
  · cases h

theorem of_mem_unitEnableSteps {changed : List ChangedUnit} {s : Step}
    (h : s ∈ unitEnableSteps changed) :
    ∃ cu ∈ changed, s = Step.enable cu.unit.name ∨ s = Step.disable cu.unit.name := by
  unfold unitEnableSteps at h
  obtain ⟨cu, hcu, hs⟩ := List.mem_map.mp h
  refine ⟨cu, hcu, ?_⟩
  by_cases h1 : (cu.unit.name == gardenerNodeAgentUnitName) = true
  · rw [if_pos h1] at hs; exact Or.inl hs.symm
  · rw [if_neg (by simpa using h1)] at hs
    by_cases h2 : cu.unit.enable.getD true
    · rw [if_pos h2] at hs; exact Or.inl hs.symm
    · rw [if_neg h2] at hs; exact Or.inr hs.symm

theorem of_mem_reloadSteps {uc : UnitChanges} {s : Step} (h : s ∈ reloadSteps uc) :
    s = Step.daemonReload := by
  unfold reloadSteps at h
  by_cases hr : mustReloadDaemon uc
  · rw [if_pos hr] at h; exact List.mem_singleton.mp h
  · rw [if_neg hr] at h; cases h

theorem of_mem_unitCommandSteps {changed : List ChangedUnit} {s : Step}
    (h : s ∈ unitCommandSteps changed) :
    ∃ cu ∈ changed, cu.unit.name ≠ gardenerNodeAgentUnitName ∧
      (s = Step.stop cu.unit.name ∨ s = Step.restart cu.unit.name) := by
  unfold unitCommandSteps at h
  obtain ⟨cu, hcu, hs⟩ := List.mem_filterMap.mp h
  by_cases h1 : (cu.unit.name == gardenerNodeAgentUnitName) = true
  · rw [if_pos h1] at hs; cases hs
  · rw [if_neg (by simpa using h1)] at hs
    refine ⟨cu, hcu, by simpa [← beq_iff_eq] using h1, ?_⟩
    by_cases h2 : cu.unit.enable.getD true = false ∨ cu.unit.command = some UnitCommand.stop
    · rw [if_pos h2] at hs; exact Or.inl (Option.some.inj hs).symm
    · rw [if_neg h2] at hs; exact Or.inr (Option.some.inj hs).symm

theorem findUnit_isSome_of_mem {l : List Unit} {u : Unit} (hu : u ∈ l) :
    ∃ v, findUnit l u.name = some v := by
  have : (l.find? (fun v => v.name == u.name)).isSome :=
    List.find?_isSome.mpr ⟨u, hu, beq_iff_eq.mpr rfl⟩
  exact Option.isSome_iff_exists.mp this

theorem fileSteps_write_mem {fc : FileChanges} {f : File} (hf : f ∈ fc.changed) :
    Step.writeFile f.path f.content (f.permissions.getD defaultFilePermissions) ∈ fileSteps fc := by
  unfold fileSteps
  exact List.mem_append.mpr (Or.inl (List.mem_map.mpr ⟨f, hf, rfl⟩))

theorem unitInstall_write_mem {changed : List ChangedUnit} {cu : ChangedUnit} {c : String}
    (hcu : cu ∈ changed) (hc : cu.unit.content = some c) :
    Step.writeFile (unitFilePath cu.unit.name) c defaultFilePermissions
      ∈ unitInstallSteps changed := by
  unfold unitInstallSteps
  refine List.mem_flatMap.mpr ⟨cu, hcu, ?_⟩
  rw [hc]
  exact List.mem_append.mpr (Or.inl (List.mem_singleton.mpr rfl))

theorem unitInstall_dropIn_mem {changed : List ChangedUnit} {cu : ChangedUnit} {d : DropIn}
    (hcu : cu ∈ changed) (hd : d ∈ cu.unit.dropIns) :
    Step.writeFile (dropInFilePath cu.unit.name d.name) d.content defaultFilePermissions
      ∈ unitInstallSteps changed := by
  unfold unitInstallSteps
  refine List.mem_flatMap.mpr ⟨cu, hcu, ?_⟩
  refine List.mem_append.mpr (Or.inr ?_)
  have hne : ¬cu.unit.dropIns.isEmpty := by
    cases hl : cu.unit.dropIns with
    | nil => rw [hl] at hd; cases hd
    | cons a t => simp [hl]
  rw [if_neg hne]
  exact List.mem_map.mpr ⟨d, hd, rfl⟩

theorem unitRemove_mem {deleted : List Unit} {u : Unit} (hu : u ∈ deleted) :
    Step.disable u.name ∈ unitRemoveSteps deleted ∧
    Step.stop u.name ∈ unitRemoveSteps deleted ∧
    Step.deleteFile (unitFilePath u.name) ∈ unitRemoveSteps deleted ∧
    Step.deleteDir (dropInDirPath u.name) ∈ unitRemoveSteps deleted := by
  unfold unitRemoveSteps
  refine ⟨List.mem_flatMap.mpr ⟨u, hu, ?_⟩, List.mem_flatMap.mpr ⟨u, hu, ?_⟩,
    List.mem_flatMap.mpr ⟨u, hu, ?_⟩, List.mem_flatMap.mpr ⟨u, hu, ?_⟩⟩ <;> simp

theorem enable_mem_of {changed : List ChangedUnit} {cu : ChangedUnit} (hcu : cu ∈ changed)
    (h : cu.unit.name = gardenerNodeAgentUnitName ∨ cu.unit.enable.getD true = true) :
    Step.enable cu.unit.name ∈ unitEnableSteps changed := by
  unfold unitEnableSteps
  refine List.mem_map.mpr ⟨cu, hcu, ?_⟩
  rcases h with h | h
  · rw [if_pos (beq_iff_eq.mpr h)]
  · by_cases h1 : (cu.unit.name == gardenerNodeAgentUnitName) = true
    · rw [if_pos h1]
    · rw [if_neg (by simpa using h1), if_pos h]

theorem disable_mem_of {changed : List ChangedUnit} {cu : ChangedUnit} (hcu : cu ∈ changed)
    (hn : cu.unit.name ≠ gardenerNodeAgentUnitName) (h : cu.unit.enable.getD true = false) :
    Step.disable cu.unit.name ∈ unitEnableSteps changed := by
  unfold unitEnableSteps
  refine List.mem_map.mpr ⟨cu, hcu, ?_⟩
  rw [if_neg (by simpa using hn), if_neg (by simp [h])]

theorem stop_mem_of {changed : List ChangedUnit} {cu : ChangedUnit} (hcu : cu ∈ changed)
    (hn : cu.unit.name ≠ gardenerNodeAgentUnitName)
    (h : cu.unit.enable.getD true = false ∨ cu.unit.command = some UnitCommand.stop) :
    Step.stop cu.unit.name ∈ unitCommandSteps changed := by
  unfold unitCommandSteps
  refine List.mem_filterMap.mpr ⟨cu, hcu, ?_⟩
  rw [if_neg (by simpa using hn), if_pos h]

theorem restart_mem_of {changed : List ChangedUnit} {cu : ChangedUnit} (hcu : cu ∈ changed)
    (hn : cu.unit.name ≠ gardenerNodeAgentUnitName)
    (h : ¬(cu.unit.enable.getD true = false ∨ cu.unit.command = some UnitCommand.stop)) :
    Step.restart cu.unit.name ∈ unitCommandSteps changed := by
  unfold unitCommandSteps
  refine List.mem_filterMap.mpr ⟨cu, hcu, ?_⟩
  rw [if_neg (by simpa using hn), if_neg h]

theorem reload_mem {uc : UnitChanges} (h : mustReloadDaemon uc = true) :
    Step.daemonReload ∈ reloadSteps uc := by
  unfold reloadSteps
  rw [if_pos h]
  exact List.mem_singleton.mpr rfl

theorem mem_plan_of_phase {ch : Changes} {s : Step}
    (h : s ∈ fileSteps ch.files ∨ s ∈ unitInstallSteps ch.units.changed
      ∨ s ∈ unitRemoveSteps ch.units.deleted ∨ s ∈ unitEnableSteps ch.units.changed
      ∨ s ∈ reloadSteps ch.units ∨ s ∈ unitCommandSteps ch.units.changed) :
    s ∈ (plan ch).steps := by
  rw [plan_steps_eq]
  simp only [List.mem_append]
  tauto

theorem of_mem_plan {ch : Changes} {s : Step} (h : s ∈ (plan ch).steps) :
    s ∈ fileSteps ch.files ∨ s ∈ unitInstallSteps ch.units.changed
      ∨ s ∈ unitRemoveSteps ch.units.deleted ∨ s ∈ unitEnableSteps ch.units.changed
      ∨ s ∈ reloadSteps ch.units ∨ s ∈ unitCommandSteps ch.units.changed := by
  rw [plan_steps_eq] at h
  simp only [List.mem_append] at h
  tauto

theorem daemonReload_not_mem_fileSteps (fc : FileChanges) :
    Step.daemonReload ∉ fileSteps fc := by
  intro h
  rcases of_mem_fileSteps h with ⟨f, _, hs⟩ | ⟨f, _, hs⟩ <;> cases hs

theorem daemonReload_not_mem_unitInstallSteps (changed : List ChangedUnit) :
    Step.daemonReload ∉ unitInstallSteps changed := by
  intro h
  rcases of_mem_unitInstallSteps h with ⟨cu, _, ⟨c, _, hs⟩ | hs | ⟨d, _, hs⟩⟩ <;> cases hs

theorem daemonReload_not_mem_unitRemoveSteps (deleted : List Unit) :
    Step.daemonReload ∉ unitRemoveSteps deleted := by
  intro h
  rcases of_mem_unitRemoveSteps h with ⟨u, _, hs | hs | hs | hs⟩ <;> cases hs

theorem daemonReload_not_mem_unitEnableSteps (changed : List ChangedUnit) :
    Step.daemonReload ∉ unitEnableSteps changed := by
  intro h
  rcases of_mem_unitEnableSteps h with ⟨cu, _, hs | hs⟩ <;> cases hs

theorem daemonReload_not_mem_unitCommandSteps (changed : List ChangedUnit) :
    Step.daemonReload ∉ unitCommandSteps changed := by
  intro h
  rcases of_mem_unitCommandSteps h with ⟨cu, _, _, hs | hs⟩ <;> cases hs

theorem count_daemonReload_plan (ch : Changes) :
    (plan ch).steps.count Step.daemonReload
      = if mustReloadDaemon ch.units then 1 else 0 := by
  rw [plan_steps_eq]
  repeat rw [List.count_append]
  rw [List.count_eq_zero.mpr (daemonReload_not_mem_fileSteps ch.files),
    List.count_eq_zero.mpr (daemonReload_not_mem_unitInstallSteps ch.units.changed),
    List.count_eq_zero.mpr (daemonReload_not_mem_unitRemoveSteps ch.units.deleted),
    List.count_eq_zero.mpr (daemonReload_not_mem_unitEnableSteps ch.units.changed),
    List.count_eq_zero.mpr (daemonReload_not_mem_unitCommandSteps ch.units.changed)]
  unfold reloadSteps
  by_cases h : mustReloadDaemon ch.units
  · rw [if_pos h, if_pos h]
    rfl
  · rw [if_neg h, if_neg h]
    rfl

theorem start_not_mem_plan (ch : Changes) (n : String) :
    Step.start n ∉ (plan ch).steps := by
  intro h
  rcases of_mem_plan h with h | h | h | h | h | h
  · rcases of_mem_fileSteps h with ⟨f, _, hs⟩ | ⟨f, _, hs⟩ <;> cases hs
  · rcases of_mem_unitInstallSteps h with ⟨cu, _, ⟨c, _, hs⟩ | hs | ⟨d, _, hs⟩⟩ <;> cases hs
  · rcases of_mem_unitRemoveSteps h with ⟨u, _, hs | hs | hs | hs⟩ <;> cases hs
  · rcases of_mem_unitEnableSteps h with ⟨cu, _, hs | hs⟩ <;> cases hs
  · cases of_mem_reloadSteps h
  · rcases of_mem_unitCommandSteps h with ⟨cu, _, _, hs | hs⟩ <;> cases hs

theorem findFile_some_of_mem {files : List File} {f : File} (hf : f ∈ files) :
    ∃ g, findFile files f.path = some g ∧ g ∈ files ∧ g.path = f.path := by
  have hs : (files.find? (fun g => g.path == f.path)).isSome :=
    List.find?_isSome.mpr ⟨f, hf, beq_iff_eq.mpr rfl⟩
  obtain ⟨g, hg⟩ := Option.isSome_iff_exists.mp hs
  have hp := List.find?_some hg
  exact ⟨g, hg, List.mem_of_find?_eq_some hg, beq_iff_eq.mp (by simpa using hp)⟩

theorem unitNeedsDaemonReload_iff (cu : ChangedUnit) :
    unitNeedsDaemonReload cu = true ↔
      cu.old = none ∨ ∃ o, cu.old = some o ∧
        (o.content ≠ cu.unit.content ∨ o.dropIns ≠ cu.unit.dropIns) := by
  unfold unitNeedsDaemonReload
  rcases ho : cu.old with _ | o
  · simp
  · dsimp only
    by_cases h : o.content = cu.unit.content ∧ o.dropIns = cu.unit.dropIns
    · rw [if_pos h]
      simp only [Bool.false_eq_true, false_iff]
      rintro (hn | ⟨o', ho', hne⟩)
      · cases hn
      · have : o' = o := Option.some.inj ho'.symm
        subst this
        rcases hne with hne | hne
        · exact hne h.1
        · exact hne h.2
    · rw [if_neg h]
      simp only [true_iff]
      refine Or.inr ⟨o, rfl, ?_⟩
      by_cases h1 : o.content = cu.unit.content
      · exact Or.inr (fun h2 => h ⟨h1, h2⟩)
      · exact Or.inl h1

theorem mustReloadDaemon_iff (uc : UnitChanges) :
    mustReloadDaemon uc = true ↔
      (∃ cu ∈ uc.changed, unitNeedsDaemonReload cu = true) ∨ uc.deleted ≠ [] := by
  unfold mustReloadDaemon
  rw [Bool.or_eq_true, List.any_eq_true]
  cases uc.deleted <;> simp

theorem mergeGroup_dropIns {input : List Unit} {n : String} {m : Unit}
    (h : mergeGroup input n = some m) :
    m.dropIns = (input.filter (fun v => v.name == n)).flatMap (fun v => v.dropIns) := by
  unfold mergeGroup at h
  rcases hf : input.filter (fun v => v.name == n) with _ | ⟨e, rest⟩
  · rw [hf] at h; cases h
  · rw [hf] at h
    have := Option.some.inj h
    rw [← this, foldl_mergeUnit_dropIns, hf, List.flatMap_cons]

theorem mergeGroup_content_none {input : List Unit} {n : String} {m : Unit}
    (hall : ∀ u ∈ input, u.name = n → u.content = none)
    (h : mergeGroup input n = some m) : m.content = none := by
  unfold mergeGroup at h
  rcases hf : input.filter (fun v => v.name == n) with _ | ⟨e, rest⟩
  · rw [hf] at h; cases h
  · rw [hf] at h
    have hm := Option.some.inj h
    have hmem : ∀ x ∈ e :: rest, x.content = none := by
      intro x hx
      have : x ∈ input.filter (fun v => v.name == n) := by rw [hf]; exact hx
      have hxi := List.mem_filter.mp this
      exact hall x hxi.1 (beq_iff_eq.mp hxi.2)
    rw [← hm]
    exact foldl_mergeUnit_content_none rest e (hmem e (List.mem_cons_self e rest))
      (fun r hr => hmem r (List.mem_cons_of_mem e hr))

/-! The settled claims. -/

/-- C2: applying the plan produced from `diff(desired, applied)` and then
committing the desired state as the new applied baseline makes the
subsequent `diff(desired, newApplied)` empty, so the next cycle's plan
contains no step at all (no repeated writes, enables, reloads or
restarts) and does not raise the cancellation flag.  The hypothesis is
the desired state's own invariant (spec.md §3, §4.2): its file set is
keyed by path, i.e. free of ambiguous path collisions. -/
theorem C2_idempotent_rediff (desired : OSC)
    (h : ∀ f ∈ collectAllFiles desired, ∀ g ∈ collectAllFiles desired, f.path = g.path → f = g) :
    diff (commit desired) desired
      = { units := { changed := [], deleted := [] }, files := { changed := [], deleted := [] } }
      ∧ (plan (diff (commit desired) desired)).steps = []
      ∧ (plan (diff (commit desired) desired)).cancel = false := by
  have hchanged : (computeUnitChanges (mergedUnits desired) (mergedUnits desired)).changed = [] := by
    unfold computeUnitChanges
    refine List.filterMap_eq_nil_iff.mpr ?_
    intro u hu
    rw [findUnit_eq_some_of_mem (nodup_names_mergedUnits desired) hu]
    dsimp only
    rw [if_pos rfl]
  have hdeleted : (computeUnitChanges (mergedUnits desired) (mergedUnits desired)).deleted = [] := by
    unfold computeUnitChanges
    refine List.filter_eq_nil_iff.mpr ?_
    intro u hu
    obtain ⟨v, hv⟩ := findUnit_isSome_of_mem hu
    simp [hv]
  have hfchanged :
      (computeFileChanges (collectAllFiles desired) (collectAllFiles desired)).changed = [] := by
    unfold computeFileChanges
    refine List.filter_eq_nil_iff.mpr ?_
    intro f hf
    obtain ⟨g, hg, hgmem, hgpath⟩ := findFile_some_of_mem hf
    have : g = f := h g hgmem f hf hgpath
    subst this
    simp [hg]
  have hfdeleted :
      (computeFileChanges (collectAllFiles desired) (collectAllFiles desired)).deleted = [] := by
    unfold computeFileChanges
    refine List.filter_eq_nil_iff.mpr ?_
    intro f hf
    obtain ⟨g, hg, _, _⟩ := findFile_some_of_mem hf
    simp [hg]
  have hdiff : diff (commit desired) desired
      = { units := { changed := [], deleted := [] },
          files := { changed := [], deleted := [] } } := by
    unfold diff commit appliedUnits appliedFiles
    rw [show (computeUnitChanges (mergedUnits desired) (mergedUnits desired))
          = { changed := [], deleted := [] } from by
        cases hc : computeUnitChanges (mergedUnits desired) (mergedUnits desired)
        rw [hc] at hchanged hdeleted
        simp only at hchanged hdeleted
        rw [hchanged, hdeleted],
      show (computeFileChanges (collectAllFiles desired) (collectAllFiles desired))
          = { changed := [], deleted := [] } from by
        cases hc : computeFileChanges (collectAllFiles desired) (collectAllFiles desired)
        rw [hc] at hfchanged hfdeleted
        simp only at hfchanged hfdeleted
        rw [hfchanged, hfdeleted]]
  refine ⟨hdiff, ?_, ?_⟩ <;> rw [hdiff] <;> rfl

/-- C2 witness: at the integration test's first document, the re-diff
against the committed baseline is empty and the follow-up plan has no
steps. -/
theorem C2_idempotent_rediff_witness :
    (plan (diff (commit osc1) osc1)).steps = []
      ∧ (plan (diff (commit osc1) osc1)).cancel = false := by
  have h := C2_idempotent_rediff osc1 (by decide)
  exact ⟨h.2.1, h.2.2⟩

/-- C5: every plan contains at most one manager-reload step; it contains
exactly one iff at least one unit was added or removed or had its content
or drop-ins changed; in particular a change set whose unit changes are
enablement-only or command-only (and removes nothing) yields zero reload
steps. -/
theorem C5_reload_minimality (applied : Option OSC) (desired : OSC) :
    (plan (diff applied desired)).steps.count Step.daemonReload ≤ 1
    ∧ ((plan (diff applied desired)).steps.count Step.daemonReload = 1 ↔
        (diff applied desired).units.deleted ≠ []
        ∨ ∃ cu ∈ (diff applied desired).units.changed,
            cu.old = none ∨ ∃ o, cu.old = some o ∧
              (o.content ≠ cu.unit.content ∨ o.dropIns ≠ cu.unit.dropIns))
    ∧ ((diff applied desired).units.deleted = [] →
        (∀ cu ∈ (diff applied desired).units.changed,
          ∃ o, cu.old = some o ∧ o.content = cu.unit.content ∧ o.dropIns = cu.unit.dropIns) →
        (plan (diff applied desired)).steps.count Step.daemonReload = 0) := by
  rw [count_daemonReload_plan]
  have hiff : mustReloadDaemon (diff applied desired).units = true ↔
      (diff applied desired).units.deleted ≠ []
      ∨ ∃ cu ∈ (diff applied desired).units.changed,
          cu.old = none ∨ ∃ o, cu.old = some o ∧
            (o.content ≠ cu.unit.content ∨ o.dropIns ≠ cu.unit.dropIns) := by
    rw [mustReloadDaemon_iff]
    constructor
    · rintro (⟨cu, hcu, hr⟩ | hd)
      · exact Or.inr ⟨cu, hcu, (unitNeedsDaemonReload_iff cu).mp hr⟩
      · exact Or.inl hd
    · rintro (hd | ⟨cu, hcu, hr⟩)
      · exact Or.inr hd
      · exact Or.inl ⟨cu, hcu, (unitNeedsDaemonReload_iff cu).mpr hr⟩
  by_cases hr : mustReloadDaemon (diff applied desired).units
  · rw [if_pos hr]
    refine ⟨le_refl 1, by simpa using hiff.mp hr, ?_⟩
    intro hdel hall
    exfalso
    rcases hiff.mp hr with hd | ⟨cu, hcu, hc⟩
    · exact hd hdel
    · obtain ⟨o, ho, hco, hdo⟩ := hall cu hcu
      rcases hc with hnone | ⟨o', ho', hne⟩
      · rw [hnone] at ho; cases ho
      · rw [ho'] at ho
        have : o' = o := Option.some.inj ho
        subst this
        rcases hne with hne | hne
        · exact hne hco
        · exact hne hdo
  · rw [if_neg hr]
    have hnot := fun hx => hr ((hiff.mpr hx))
    refine ⟨Nat.zero_le 1, ?_, fun _ _ => rfl⟩
    simp only [Nat.zero_ne_one, false_iff]
    exact hnot

/-- C5 witness: a drop-in change of `unit5` yields exactly one reload,
while an enablement-only change (the agent unit's enable flip) yields
zero reloads. -/
theorem C5_reload_minimality_witness :
    (plan (diff (some oscUnit5Old) oscUnit5New)).steps.count Step.daemonReload = 1
    ∧ (plan (diff (some oscGnaOld) oscGnaNew)).steps.count Step.daemonReload = 0 := by
  have h1 := C5_reload_minimality (some oscUnit5Old) oscUnit5New
  have h2 := C5_reload_minimality (some oscGnaOld) oscGnaNew
  refine ⟨h1.2.1.mpr ?_, h2.2.2 (by decide) ?_⟩
  · refine Or.inr ⟨{ unit := unit5v2, old := some unit5 }, by decide, ?_⟩
    exact Or.inr ⟨unit5, rfl, Or.inr (by decide)⟩
  · intro cu hcu
    refine ⟨gnaUnit, ?_, ?_, ?_⟩ <;> revert hcu <;> revert cu <;> decide

/-- C6: assembling an owner unit list and an extension unit list that
both contain entries of the same unit name yields exactly one unit of
that name, whose drop-in sequence is the owner-declared drop-ins followed
by the extension-declared drop-ins in declaration order. -/
theorem C6_merge_correctness (ownerUnits extensionUnits : List Unit) (n : String)
    (h1 : ∃ u ∈ ownerUnits, u.name = n) (h2 : ∃ u ∈ extensionUnits, u.name = n) :
    ((mergeUnits ownerUnits extensionUnits).filter (fun u => u.name == n)).length = 1
    ∧ ∀ u ∈ mergeUnits ownerUnits extensionUnits, u.name = n →
        u.dropIns = (ownerUnits.filter (fun v => v.name == n)).flatMap (fun v => v.dropIns)
          ++ (extensionUnits.filter (fun v => v.name == n)).flatMap (fun v => v.dropIns) := by
  obtain ⟨u0, hu0, hu0n⟩ := h1
  have hu0' : u0 ∈ ownerUnits ++ extensionUnits := List.mem_append.mpr (Or.inl hu0)
  obtain ⟨m, hm⟩ := mergeGroup_isSome hu0' hu0n
  have hmn : m.name = n := mergeGroup_name hm
  have hmmem : m ∈ mergeUnits ownerUnits extensionUnits :=
    mem_mergeUnits_of_group hm (List.mem_map.mpr ⟨u0, hu0', hu0n⟩)
  have hnd := nodup_names_mergeUnits ownerUnits extensionUnits
  constructor
  · rw [← hmn, filter_name_of_mem hnd hmmem]
    rfl
  · intro u hu hun
    have : u = m := name_inj hnd hu hmmem (hun.trans hmn.symm)
    subst this
    rw [mergeGroup_dropIns hm, List.filter_append, List.flatMap_append]

/-- C6 witness: the integration test's unit5 declared in the owner list
together with its fragment-only second entry yields one merged
`unit5` whose drop-ins are `drop1`, `drop2`, `extensionsdrop` in order. -/
theorem C6_merge_correctness_witness :
    ((mergeUnits [unit5] [unit5DropInsOnly]).filter (fun u => u.name == "unit5")).length = 1
    ∧ ∀ u ∈ mergeUnits [unit5] [unit5DropInsOnly], u.name = "unit5" →
        u.dropIns = ([unit5].filter (fun v => v.name == "unit5")).flatMap (fun v => v.dropIns)
          ++ ([unit5DropInsOnly].filter (fun v => v.name == "unit5")).flatMap
              (fun v => v.dropIns) :=
  C6_merge_correctness [unit5] [unit5DropInsOnly] "unit5"
    ⟨unit5, by decide, by decide⟩ ⟨unit5DropInsOnly, by decide, by decide⟩

/-- C7 counterexample: the fragment-only extension unit `unit3` of the
integration test, with no owner or base definition of that name, does
not make assembly fail: it yields a standalone unit, and the plan
executes steps for it (its drop-in is installed, it is enabled and
restarted) — contradicting the claim that an `OrphanDropIn` error is
raised before any step executes. -/
theorem C7_counterexample :
    unit3.content = none ∧ unit3.enable = none
    ∧ mergeUnits [] [unit3] = [unit3]
    ∧ Step.writeFile (dropInFilePath "unit3" "drop") "#unit3drop" 0o600
        ∈ (plan (diff none oscUnit3Only)).steps
    ∧ Step.enable "unit3" ∈ (plan (diff none oscUnit3Only)).steps
    ∧ Step.restart "unit3" ∈ (plan (diff none oscUnit3Only)).steps := by
  decide

/-- C7 (amended): assembling a desired state in which some unit name has
only fragment-only entries (no base definition declaring content, in
either list) does not fail; it produces exactly one standalone unit of
that name, with no content and with the fragments' drop-ins concatenated
in declaration order. -/
theorem C7_orphan_fragment_units (ownerUnits extensionUnits : List Unit) (n : String)
    (h1 : ∀ u ∈ ownerUnits, u.name ≠ n)
    (h2 : ∃ u ∈ extensionUnits, u.name = n)
    (h3 : ∀ u ∈ extensionUnits, u.name = n → u.content = none) :
    ((mergeUnits ownerUnits extensionUnits).filter (fun u => u.name == n)).length = 1
    ∧ ∀ u ∈ mergeUnits ownerUnits extensionUnits, u.name = n →
        u.content = none
        ∧ u.dropIns = (extensionUnits.filter (fun v => v.name == n)).flatMap
            (fun v => v.dropIns) := by
  obtain ⟨u0, hu0, hu0n⟩ := h2
  have hu0' : u0 ∈ ownerUnits ++ extensionUnits := List.mem_append.mpr (Or.inr hu0)
  obtain ⟨m, hm⟩ := mergeGroup_isSome hu0' hu0n
  have hmn : m.name = n := mergeGroup_name hm
  have hmmem : m ∈ mergeUnits ownerUnits extensionUnits :=
    mem_mergeUnits_of_group hm (List.mem_map.mpr ⟨u0, hu0', hu0n⟩)
  have hnd := nodup_names_mergeUnits ownerUnits extensionUnits
  have hownerNil : ownerUnits.filter (fun v => v.name == n) = [] := by
    refine List.filter_eq_nil_iff.mpr ?_
    intro u hu hb
    exact h1 u hu (beq_iff_eq.mp hb)
  constructor
  · rw [← hmn, filter_name_of_mem hnd hmmem]
    rfl
  · intro u hu hun
    have : u = m := name_inj hnd hu hmmem (hun.trans hmn.symm)
    subst this
    refine ⟨?_, ?_⟩
    · refine mergeGroup_content_none ?_ hm
      intro x hx hxn
      rcases List.mem_append.mp hx with hx | hx
      · exact absurd hxn (h1 x hx)
      · exact h3 x hx hxn
    · rw [mergeGroup_dropIns hm, List.filter_append, List.flatMap_append, hownerNil]
      rfl

/-- C7 witness: at the integration test's data, owner list `[unit1]` and
extension list `[unit3]` (only fragment entries for name `unit3`) yield
exactly one unit named `unit3`, without content, carrying its drop-in. -/
theorem C7_orphan_fragment_units_witness :
    ((mergeUnits [unit1] [unit3]).filter (fun u => u.name == "unit3")).length = 1
    ∧ ∀ u ∈ mergeUnits [unit1] [unit3], u.name = "unit3" →
        u.content = none
        ∧ u.dropIns = ([unit3].filter (fun v => v.name == "unit3")).flatMap
            (fun v => v.dropIns) :=
  C7_orphan_fragment_units [unit1] [unit3] "unit3" (by decide)
    ⟨unit3, by decide, by decide⟩ (by decide)

/-- C1 counterexample: an enablement-only change of the agent's own unit
(`enable: false` flipped to `true`, content and drop-ins untouched) puts
the agent unit into the Added/Modified set and raises the cancellation
flag, but the produced plan contains zero manager-reload steps — the
claim demands exactly one. -/
theorem C1_counterexample :
    (∃ cu ∈ (diff (some oscGnaOld) oscGnaNew).units.changed,
        cu.unit.name = gardenerNodeAgentUnitName)
    ∧ (plan (diff (some oscGnaOld) oscGnaNew)).cancel = true
    ∧ (plan (diff (some oscGnaOld) oscGnaNew)).steps.count Step.daemonReload = 0 := by
  decide

/-- C1 (amended): the cancellation flag is raised exactly when the
agent's own unit is among the Added/Modified units (equivalently, its
desired merged definition differs from the applied baseline's); whenever
it is, the plan installs and enables the agent unit and emits no
start/stop/restart for it; every plan has at most one manager reload, and
when the agent unit's change is an addition or touches its content or
drop-ins, the plan has exactly one manager reload. -/
theorem C1_self_restart_gate (applied : Option OSC) (desired : OSC) :
    ((plan (diff applied desired)).cancel = true ↔
      ∃ u, findUnit (mergedUnits desired) gardenerNodeAgentUnitName = some u
        ∧ findUnit (appliedUnits applied) gardenerNodeAgentUnitName ≠ some u)
    ∧ ((∃ cu ∈ (diff applied desired).units.changed,
          cu.unit.name = gardenerNodeAgentUnitName) →
        Step.enable gardenerNodeAgentUnitName ∈ (plan (diff applied desired)).steps
        ∧ Step.start gardenerNodeAgentUnitName ∉ (plan (diff applied desired)).steps
        ∧ Step.stop gardenerNodeAgentUnitName ∉ (plan (diff applied desired)).steps
        ∧ Step.restart gardenerNodeAgentUnitName ∉ (plan (diff applied desired)).steps)
    ∧ (plan (diff applied desired)).steps.count Step.daemonReload ≤ 1
    ∧ ((∃ cu ∈ (diff applied desired).units.changed,
          cu.unit.name = gardenerNodeAgentUnitName
          ∧ (cu.old = none ∨ ∃ o, cu.old = some o ∧
              (o.content ≠ cu.unit.content ∨ o.dropIns ≠ cu.unit.dropIns))) →
        (plan (diff applied desired)).steps.count Step.daemonReload = 1) := by
  refine ⟨?_, ?_, ?_, ?_⟩
  · show ((diff applied desired).units.changed.any
        (fun cu => cu.unit.name == gardenerNodeAgentUnitName)) = true ↔ _
    rw [List.any_eq_true]
    constructor
    · rintro ⟨cu, hcu, hb⟩
      have hn : cu.unit.name = gardenerNodeAgentUnitName := beq_iff_eq.mp hb
      obtain ⟨hmem, hold, hne⟩ := changed_spec hcu
      refine ⟨cu.unit, ?_, ?_⟩
      · rw [← hn]
        exact findUnit_eq_some_of_mem (nodup_names_mergedUnits desired) hmem
      · rw [← hn, ← hold]
        exact hne
    · rintro ⟨u, hfind, hne⟩
      have hmem : u ∈ mergedUnits desired := List.mem_of_find?_eq_some hfind
      have hun : u.name = gardenerNodeAgentUnitName :=
        beq_iff_eq.mp (by simpa using List.find?_some hfind)
      have hold : findUnit (appliedUnits applied) u.name ≠ some u := by
        rw [hun]; exact hne
      refine ⟨{ unit := u, old := findUnit (appliedUnits applied) u.name },
        mem_changed_of hmem hold, beq_iff_eq.mpr hun⟩
  · rintro ⟨cu, hcu, hn⟩
    refine ⟨?_, start_not_mem_plan _ _, ?_, ?_⟩
    · have := enable_mem_of hcu (Or.inl hn)
      rw [hn] at this
      exact mem_plan_of_phase (Or.inr (Or.inr (Or.inr (Or.inl this))))
    · intro h
      rcases of_mem_plan h with h | h | h | h | h | h
      · rcases of_mem_fileSteps h with ⟨f, _, hs⟩ | ⟨f, _, hs⟩ <;> cases hs
      · rcases of_mem_unitInstallSteps h with ⟨cv, _, ⟨c, _, hs⟩ | hs | ⟨d, _, hs⟩⟩ <;> cases hs
      · obtain ⟨u, hu, hs⟩ := of_mem_unitRemoveSteps h
        rcases hs with hs | hs | hs | hs
        · cases hs
        · have hun : gardenerNodeAgentUnitName = u.name := Step.stop.inj hs
          have habs : findUnit (mergedUnits desired) u.name = none :=
            (deleted_spec.mp hu).2
          obtain ⟨hmem, _, _⟩ := changed_spec hcu
          have hfind := findUnit_eq_some_of_mem (nodup_names_mergedUnits desired) hmem
          rw [hn, hun] at hfind
          rw [hfind] at habs
          cases habs
        · cases hs
        · cases hs
      · rcases of_mem_unitEnableSteps h with ⟨cv, _, hs | hs⟩ <;> cases hs
      · cases of_mem_reloadSteps h
      · obtain ⟨cv, _, hvn, hs | hs⟩ := of_mem_unitCommandSteps h
        · exact hvn (Step.stop.inj hs).symm
        · cases hs
    · intro h
      rcases of_mem_plan h with h | h | h | h | h | h
      · rcases of_mem_fileSteps h with ⟨f, _, hs⟩ | ⟨f, _, hs⟩ <;> cases hs
      · rcases of_mem_unitInstallSteps h with ⟨cv, _, ⟨c, _, hs⟩ | hs | ⟨d, _, hs⟩⟩ <;> cases hs
      · rcases of_mem_unitRemoveSteps h with ⟨u, _, hs | hs | hs | hs⟩ <;> cases hs
      · rcases of_mem_unitEnableSteps h with ⟨cv, _, hs | hs⟩ <;> cases hs
      · cases of_mem_reloadSteps h
      · obtain ⟨cv, _, hvn, hs | hs⟩ := of_mem_unitCommandSteps h
        · cases hs
        · exact hvn (Step.restart.inj hs).symm
  · rw [count_daemonReload_plan]
    by_cases h : mustReloadDaemon (diff applied desired).units
    · rw [if_pos h]
    · rw [if_neg h]; exact Nat.zero_le 1
  · rintro ⟨cu, hcu, _, hcond⟩
    rw [count_daemonReload_plan, if_pos ?_]
    rw [mustReloadDaemon_iff]
    exact Or.inl ⟨cu, hcu, (unitNeedsDaemonReload_iff cu).mpr hcond⟩

/-- C1 witness: at the integration test's self-restart scenario (the
agent unit newly added on top of the first document), the cancellation
flag is raised, the agent unit is enabled, no restart of it is emitted,
and exactly one manager reload is planned. -/
theorem C1_self_restart_gate_witness :
    (plan (diff (some osc1) oscGna)).cancel = true
    ∧ Step.enable gardenerNodeAgentUnitName ∈ (plan (diff (some osc1) oscGna)).steps
    ∧ Step.restart gardenerNodeAgentUnitName ∉ (plan (diff (some osc1) oscGna)).steps
    ∧ (plan (diff (some osc1) oscGna)).steps.count Step.daemonReload = 1 := by
  have h := C1_self_restart_gate (some osc1) oscGna
  refine ⟨h.1.mpr ⟨gnaUnit, by decide, by decide⟩, (h.2.1 (by decide)).1,
    (h.2.1 (by decide)).2.2.2, h.2.2.2 (by decide)⟩

/-- C3 counterexample: at the integration test's data, the fragment-only
unit `unit3` declares no command yet receives a `restart` step, and the
newly added `unit1` with `command: start` receives `restart`, never
`start` — contradicting the claim that command-less units get no
start/stop/restart step and that newly added units get `start`. -/
theorem C3_counterexample :
    unit3.command = none
    ∧ ({ unit := unit3, old := none } : ChangedUnit) ∈ (diff none oscUnit3Only).units.changed
    ∧ Step.restart "unit3" ∈ (plan (diff none oscUnit3Only)).steps
    ∧ unit1.command = some UnitCommand.start
    ∧ ({ unit := unit1, old := none } : ChangedUnit) ∈ (diff none oscUnit1Only).units.changed
    ∧ Step.start "unit1" ∉ (plan (diff none oscUnit1Only)).steps
    ∧ Step.restart "unit1" ∈ (plan (diff none oscUnit1Only)).steps := by
  decide

/-- C3 (amended): in the command phase, every Added/Modified unit other
than the agent's own receives `stop` when it is explicitly disabled or
declares `command: stop`, and receives `restart` in every other case —
also when it was newly added and also when it declares no command; a
`start` step is never emitted at all. -/
theorem C3_command_phase (applied : Option OSC) (desired : OSC) (cu : ChangedUnit)
    (hcu : cu ∈ (diff applied desired).units.changed)
    (hn : cu.unit.name ≠ gardenerNodeAgentUnitName) :
    ((cu.unit.enable.getD true = false ∨ cu.unit.command = some UnitCommand.stop) →
      Step.stop cu.unit.name ∈ (plan (diff applied desired)).steps)
    ∧ (cu.unit.enable.getD true = true → cu.unit.command ≠ some UnitCommand.stop →
      Step.restart cu.unit.name ∈ (plan (diff applied desired)).steps)
    ∧ (∀ m, Step.start m ∉ (plan (diff applied desired)).steps) := by
  refine ⟨?_, ?_, fun m => start_not_mem_plan _ m⟩
  · intro h
    exact mem_plan_of_phase (Or.inr (Or.inr (Or.inr (Or.inr (Or.inr
      (stop_mem_of hcu hn h))))))
  · intro h1 h2
    have hnot : ¬(cu.unit.enable.getD true = false ∨ cu.unit.command = some UnitCommand.stop) := by
      rintro (hf | hc)
      · rw [h1] at hf; cases hf
      · exact h2 hc
    exact mem_plan_of_phase (Or.inr (Or.inr (Or.inr (Or.inr (Or.inr
      (restart_mem_of hcu hn hnot))))))

/-- C3 witness: the newly added `unit1` (command start, enabled) is
restarted and the newly added `unit2` (command stop) is stopped. -/
theorem C3_command_phase_witness :
    Step.restart "unit1" ∈ (plan (diff none oscUnit1Only)).steps
    ∧ Step.stop "unit2" ∈ (plan (diff none oscUnit2Only)).steps := by
  have h1 := C3_command_phase none oscUnit1Only { unit := unit1, old := none }
    (by decide) (by decide)
  have h2 := C3_command_phase none oscUnit2Only { unit := unit2, old := none }
    (by decide) (by decide)
  exact ⟨h1.2.1 (by decide) (by decide), h2.1 (by decide)⟩

/-- C4 counterexample: at the integration test's data, the modified
`unit5` whose `enable` value did not change (true before and after) is
re-issued an enable step, and the fragment-only `unit3`, which declares
no `enable` at all, is issued an enable step — contradicting the claim
that only units whose enable value differs receive a step and that units
without `enable` receive none. -/
theorem C4_counterexample :
    unit5v2.enable = unit5.enable
    ∧ ({ unit := unit5v2, old := some unit5 } : ChangedUnit)
        ∈ (diff (some oscUnit5Old) oscUnit5New).units.changed
    ∧ Step.enable "unit5" ∈ (plan (diff (some oscUnit5Old) oscUnit5New)).steps
    ∧ unit3.enable = none
    ∧ Step.enable "unit3" ∈ (plan (diff none oscUnit3Only)).steps := by
  decide

/-- C4 (amended): in the enablement phase, every Added/Modified unit
receives an enablement step according to its desired `enable` value with
absence defaulting to enable (the agent's own unit is always enabled);
every Removed unit receives a disable step; a unit that is neither
added/modified nor removed receives no enable/disable step. -/
theorem C4_enablement_phase (applied : Option OSC) (desired : OSC) :
    (∀ cu ∈ (diff applied desired).units.changed,
      ((cu.unit.name = gardenerNodeAgentUnitName ∨ cu.unit.enable.getD true = true) →
        Step.enable cu.unit.name ∈ (plan (diff applied desired)).steps)
      ∧ (cu.unit.name ≠ gardenerNodeAgentUnitName → cu.unit.enable.getD true = false →
        Step.disable cu.unit.name ∈ (plan (diff applied desired)).steps))
    ∧ (∀ u ∈ (diff applied desired).units.deleted,
        Step.disable u.name ∈ (plan (diff applied desired)).steps)
    ∧ (∀ n, (∀ cu ∈ (diff applied desired).units.changed, cu.unit.name ≠ n) →
        (∀ u ∈ (diff applied desired).units.deleted, u.name ≠ n) →
        Step.enable n ∉ (plan (diff applied desired)).steps
        ∧ Step.disable n ∉ (plan (diff applied desired)).steps) := by
  refine ⟨?_, ?_, ?_⟩
  · intro cu hcu
    refine ⟨?_, ?_⟩
    · intro h
      exact mem_plan_of_phase (Or.inr (Or.inr (Or.inr (Or.inl (enable_mem_of hcu h)))))
    · intro hn h
      exact mem_plan_of_phase (Or.inr (Or.inr (Or.inr (Or.inl (disable_mem_of hcu hn h)))))
  · intro u hu
    exact mem_plan_of_phase (Or.inr (Or.inr (Or.inl (unitRemove_mem hu).1)))
  · intro n hch hdel
    constructor
    · intro h
      rcases of_mem_plan h with h | h | h | h | h | h
      · rcases of_mem_fileSteps h with ⟨f, _, hs⟩ | ⟨f, _, hs⟩ <;> cases hs
      · rcases of_mem_unitInstallSteps h with ⟨cv, _, ⟨c, _, hs⟩ | hs | ⟨d, _, hs⟩⟩ <;> cases hs
      · rcases of_mem_unitRemoveSteps h with ⟨u, hu, hs | hs | hs | hs⟩ <;> cases hs
      · obtain ⟨cv, hcv, hs | hs⟩ := of_mem_unitEnableSteps h
        · exact hch cv hcv (Step.enable.inj hs).symm
        · cases hs
      · cases of_mem_reloadSteps h
      · rcases of_mem_unitCommandSteps h with ⟨cv, _, _, hs | hs⟩ <;> cases hs
    · intro h
      rcases of_mem_plan h with h | h | h | h | h | h
      · rcases of_mem_fileSteps h with ⟨f, _, hs⟩ | ⟨f, _, hs⟩ <;> cases hs
      · rcases of_mem_unitInstallSteps h with ⟨cv, _, ⟨c, _, hs⟩ | hs | ⟨d, _, hs⟩⟩ <;> cases hs
      · obtain ⟨u, hu, hs | hs | hs | hs⟩ := of_mem_unitRemoveSteps h
        · exact hdel u hu (Step.disable.inj hs).symm
        · cases hs
        · cases hs
        · cases hs
      · obtain ⟨cv, hcv, hs | hs⟩ := of_mem_unitEnableSteps h
        · cases hs
        · exact hch cv hcv (Step.disable.inj hs).symm
      · cases of_mem_reloadSteps h
      · rcases of_mem_unitCommandSteps h with ⟨cv, _, _, hs | hs⟩ <;> cases hs

/-- C4 witness: the modified `unit5` is enabled, the newly added
disabled `unit2` is disabled, the removed `unit1` is disabled, and a
name outside the change set receives no enablement step. -/
theorem C4_enablement_phase_witness :
    Step.enable "unit5" ∈ (plan (diff (some oscUnit5Old) oscUnit5New)).steps
    ∧ Step.disable "unit2" ∈ (plan (diff none oscUnit2Only)).steps
    ∧ Step.disable "unit1" ∈ (plan (diff (some oscUnit1Only) oscEmpty)).steps
    ∧ Step.enable "missing" ∉ (plan (diff (some oscUnit1Only) oscEmpty)).steps := by
  have h1 := C4_enablement_phase (some oscUnit5Old) oscUnit5New
  have h2 := C4_enablement_phase none oscUnit2Only
  have h3 := C4_enablement_phase (some oscUnit1Only) oscEmpty
  exact ⟨(h1.1 { unit := unit5v2, old := some unit5 } (by decide)).1 (by decide),
    (h2.1 { unit := unit2, old := none } (by decide)).2 (by decide) (by decide),
    h3.2.1 unit1 (by decide),
    (h3.2.2 "missing" (by decide) (by decide)).1⟩

/-- C8: every unit present in the applied baseline whose name is absent
from the desired state is classified Removed, and the plan stops it and
deletes both its unit file and its whole drop-in directory under the
unit-configuration root. -/
theorem C8_removal_cleanup (applied : Option OSC) (desired : OSC) (u : Unit)
    (hu : u ∈ appliedUnits applied)
    (habsent : findUnit (mergedUnits desired) u.name = none) :
    u ∈ (diff applied desired).units.deleted
    ∧ Step.stop u.name ∈ (plan (diff applied desired)).steps
    ∧ Step.deleteFile (unitFilePath u.name) ∈ (plan (diff applied desired)).steps
    ∧ Step.deleteDir (dropInDirPath u.name) ∈ (plan (diff applied desired)).steps := by
  have hdel : u ∈ (diff applied desired).units.deleted :=
    deleted_spec.mpr ⟨hu, habsent⟩
  obtain ⟨_, h2, h3, h4⟩ := unitRemove_mem hdel
  exact ⟨hdel, mem_plan_of_phase (Or.inr (Or.inr (Or.inl h2))),
    mem_plan_of_phase (Or.inr (Or.inr (Or.inl h3))),
    mem_plan_of_phase (Or.inr (Or.inr (Or.inl h4)))⟩

/-- C8 witness: removing `unit1` plans its stop and deletes its unit
file and drop-in directory. -/
theorem C8_removal_cleanup_witness :
    unit1 ∈ (diff (some oscUnit1Only) oscEmpty).units.deleted
    ∧ Step.stop "unit1" ∈ (plan (diff (some oscUnit1Only) oscEmpty)).steps
    ∧ Step.deleteFile (unitFilePath "unit1") ∈ (plan (diff (some oscUnit1Only) oscEmpty)).steps
    ∧ Step.deleteDir (dropInDirPath "unit1") ∈ (plan (diff (some oscUnit1Only) oscEmpty)).steps :=
  C8_removal_cleanup (some oscUnit1Only) oscEmpty unit1 (by decide) (by decide)

/-- C9: every Added/Modified file declared without permissions is written
with the restrictive default mode 0600 (owner read/write only), and a
file with explicit permissions is written with exactly the declared mode
bits. -/
theorem C9_file_permissions (applied : Option OSC) (desired : OSC) (f : File)
    (hf : f ∈ (diff applied desired).files.changed) :
    (f.permissions = none →
      Step.writeFile f.path f.content 0o600 ∈ (plan (diff applied desired)).steps)
    ∧ (∀ m, f.permissions = some m →
      Step.writeFile f.path f.content m ∈ (plan (diff applied desired)).steps) := by
  have hmem := fileSteps_write_mem hf
  constructor
  · intro hp
    rw [hp] at hmem
    exact mem_plan_of_phase (Or.inl hmem)
  · intro m hp
    rw [hp] at hmem
    exact mem_plan_of_phase (Or.inl hmem)

/-- C9 witness: `file2` (no permissions) is written with mode 0600 and
`file1` with its declared mode 0777. -/
theorem C9_file_permissions_witness :
    file2.permissions = none
    ∧ Step.writeFile "/another/file" "file2" 0o600 ∈ (plan (diff none oscFilesOnly)).steps
    ∧ file1.permissions = some 0o777
    ∧ Step.writeFile "/example/file" "file1" 0o777 ∈ (plan (diff none oscFilesOnly)).steps := by
  have h2 := C9_file_permissions none oscFilesOnly file2 (by decide)
  have h1 := C9_file_permissions none oscFilesOnly file1 (by decide)
  exact ⟨rfl, h2.1 rfl, rfl, h1.2 0o777 rfl⟩

/-- C10: for every Added/Modified unit, its declared content is written
to `/etc/systemd/system/<unit-name>` and each of its drop-ins to
`/etc/systemd/system/<unit-name>.d/<dropin-name>`, all with mode 0600;
moreover every file written by the unit-installation phase has mode 0600
regardless of any permissions declared elsewhere. -/
theorem C10_unit_file_layout (applied : Option OSC) (desired : OSC) (cu : ChangedUnit)
    (hcu : cu ∈ (diff applied desired).units.changed) :
    (∀ c, cu.unit.content = some c →
      Step.writeFile ("/etc/systemd/system/" ++ cu.unit.name) c 0o600
        ∈ (plan (diff applied desired)).steps)
    ∧ (∀ d ∈ cu.unit.dropIns,
      Step.writeFile ("/etc/systemd/system/" ++ cu.unit.name ++ ".d" ++ "/" ++ d.name)
          d.content 0o600
        ∈ (plan (diff applied desired)).steps)
    ∧ (∀ p c m, Step.writeFile p c m ∈ unitInstallSteps (diff applied desired).units.changed →
        m = 0o600) := by
  refine ⟨?_, ?_, ?_⟩
  · intro c hc
    exact mem_plan_of_phase (Or.inr (Or.inl (unitInstall_write_mem hcu hc)))
  · intro d hd
    exact mem_plan_of_phase (Or.inr (Or.inl (unitInstall_dropIn_mem hcu hd)))
  · intro p c m hmem
    rcases of_mem_unitInstallSteps hmem with ⟨cv, _, ⟨c', _, hs⟩ | hs | ⟨d, _, hs⟩⟩
    · cases hs; rfl
    · cases hs
    · cases hs; rfl

/-- C10 witness: the newly added `unit1` has its content written to
`/etc/systemd/system/unit1` and its drop-in to
`/etc/systemd/system/unit1.d/drop`, both with mode 0600. -/
theorem C10_unit_file_layout_witness :
    Step.writeFile ("/etc/systemd/system/" ++ "unit1") "#unit1" 0o600
      ∈ (plan (diff none oscUnit1Only)).steps
    ∧ Step.writeFile ("/etc/systemd/system/" ++ "unit1" ++ ".d" ++ "/" ++ "drop")
        "#unit1drop" 0o600 ∈ (plan (diff none oscUnit1Only)).steps := by
  have h := C10_unit_file_layout none oscUnit1Only { unit := unit1, old := none } (by decide)
  exact ⟨h.1 "#unit1" rfl, h.2.1 { name := "drop", content := "#unit1drop" } (by decide)⟩

end NA

